import Mathlib

/-!
Verification of the Omarchy Manual scraper core (`src/scraper.py`) against its
natural-language specification.  The Python code is shallowly embedded:
strings are `String`/`List Char`, the metadata ledger is an association list,
per-chapter work is a pure function of the (injected) fetch/extract outcomes,
and the `asyncio.as_completed` loop is a fold over an arbitrary completion
order.  External library calls (hashlib, urllib, BeautifulSoup parsing) are
modelled abstractly or parametrically, as noted at each definition.
-/

/-- The filesystem-hostile characters of the regex `[<>:"/\\|?*]` in
`_sanitize_filename`. -/
def isHostile (c : Char) : Bool :=
  c = '<' || c = '>' || c = ':' || c = '"' || c = '/' || c = '\\' ||
  c = '|' || c = '?' || c = '*'

/-- ASCII whitespace as matched by Python's regex `\s` (the inputs in play are
ASCII): space, tab, newline, carriage return, vertical tab, form feed. -/
def isPySpace (c : Char) : Bool :=
  c = ' ' || c = '\t' || c = '\n' || c = '\r' || c = '\x0b' || c = '\x0c'

/-- `re.sub(r'[<>:"/\\|?*]', '_', title)`: each hostile character becomes an
underscore. -/
def replaceHostile (l : List Char) : List Char :=
  l.map (fun c => if isHostile c then '_' else c)

/-- Worker for `re.sub(r'\s+', '_', s)`: the flag records whether we are inside
a whitespace run that has already emitted its single underscore. -/
def collapseWsAux : Bool → List Char → List Char
  | _, [] => []
  | inRun, c :: rest =>
    if isPySpace c then
      if inRun then collapseWsAux true rest
      else '_' :: collapseWsAux true rest
    else c :: collapseWsAux false rest

/-- `re.sub(r'\s+', '_', s)`: each maximal whitespace run becomes one
underscore. -/
def collapseWs (l : List Char) : List Char :=
  collapseWsAux false l

/-- Characters removed at both ends by `str.strip('._')`. -/
def isDotUnd (c : Char) : Bool :=
  c = '.' || c = '_'

/-- `s.strip('._')`: drop leading and trailing `.` and `_` characters. -/
def stripDotUnd (l : List Char) : List Char :=
  ((l.dropWhile isDotUnd).reverse.dropWhile isDotUnd).reverse

/-- `_sanitize_filename` from `src/scraper.py`: hostile characters to `_`,
whitespace runs to `_`, strip `.`/`_` at both ends, truncate to 100
characters. -/
def sanitize_filename (title : String) : String :=
  String.mk ((stripDotUnd (collapseWs (replaceHostile title.data))).take 100)

/-- The decorative prefix `"Open "` removed from TOC link texts, as a
character list. -/
def patOpen : List Char := ['O', 'p', 'e', 'n', ' ']

/-- Python's `text.replace('Open ', '')`: remove every non-overlapping
occurrence of `"Open "`, scanning left to right. -/
def stripOpenAll : List Char → List Char
  | [] => []
  | 'O' :: 'p' :: 'e' :: 'n' :: ' ' :: rest => stripOpenAll rest
  | c :: rest => c :: stripOpenAll rest

/-- `clean_title = text.replace('Open ', '') if text.startswith('Open ') else text`
from `extract_chapter_links` (`text.startswith` is a character-level
check). -/
def cleanTitle (text : String) : String :=
  if patOpen.isPrefixOf text.data then String.mk (stripOpenAll text.data) else text

/-- Python's substring test `pat in s` on character lists. -/
def containsSub (pat : List Char) : List Char → Bool
  | [] => decide (pat = [])
  | c :: rest => pat.isPrefixOf (c :: rest) || containsSub pat rest

/-- One value of the metadata mapping, as written at lines 211–217 of
`src/scraper.py`. -/
structure MetaEntry where
  title : String
  filename : String
  hash : String
  last_updated : String
  url : String
deriving DecidableEq

/-- `self.metadata`: a Python dict from chapter URL to entry, modelled as an
association list in insertion order with unique keys. -/
def Ledger := List (String × MetaEntry)

/-- Dict read `metadata.get(url)`: first (and only) binding for the key. -/
def lookupLedger : Ledger → String → Option MetaEntry
  | [], _ => none
  | (k, v) :: rest, u => if k = u then some v else lookupLedger rest u

/-- Dict write `metadata[url] = entry`: replace the binding in place if the
key is present, else append (Python dicts preserve insertion order). -/
def setLedger : Ledger → String → MetaEntry → Ledger
  | [], u, e => [(u, e)]
  | (k, v) :: rest, u, e =>
    if k = u then (k, e) :: rest else (k, v) :: setLedger rest u e

/-- Lines 207–217 of `_process_chapter` (the spec's `recordAndCompare`):
read the prior hash (`''` when absent), compare it with the new digest, and
unconditionally store the fresh entry. -/
def recordAndCompare (m : Ledger) (url title filename digest now : String) :
    Ledger × Bool :=
  let old_hash := (Option.map (fun e => e.hash) (lookupLedger m url)).getD ""
  let changed := digest != old_hash
  (setLedger m url ⟨title, filename, digest, now, url⟩, changed)

/-- `_process_chapter` from `src/scraper.py`, as a pure function of the
injected fetch and extract outcomes (the HTTP transport and the
HTML-to-Markdown conversion are external collaborators).  `hashFn` stands for
`hashlib.sha256(...).hexdigest()`, a deterministic function of the content.
On success it returns the updated ledger together with
`(filename, markdown_content, changed)`; any fetch/extract failure is
wrapped into the per-chapter `ScraperError` message. -/
def process_chapter (hashFn : String → String) (fetchRes : Except String String)
    (extract : String → Except String String) (m : Ledger)
    (title url now : String) : Except String (Ledger × String × String × Bool) :=
  match fetchRes with
  | .error e => .error ("Error processing chapter '" ++ title ++ "': " ++ e)
  | .ok html =>
    match extract html with
    | .error e => .error ("Error processing chapter '" ++ title ++ "': " ++ e)
    | .ok markdown_content =>
      let content_hash := hashFn markdown_content
      let filename := sanitize_filename title ++ ".md"
      let rc := recordAndCompare m url title filename content_hash now
      .ok (rc.1, filename, markdown_content, rc.2)

/-- `results_dict`: a Python dict from original discovery index to
`(filename, content)`. -/
def ResultsDict := List (Nat × (String × String))

/-- Dict read on `results_dict`. -/
def dictLookup : ResultsDict → Nat → Option (String × String)
  | [], _ => none
  | (k, v) :: rest, i => if k = i then some v else dictLookup rest i

/-- Dict write `results_dict[i] = (filename, content)`. -/
def dictInsert : ResultsDict → Nat → (String × String) → ResultsDict
  | [], i, v => [(i, v)]
  | (k, w) :: rest, i, v =>
    if k = i then (k, v) :: rest else (k, w) :: dictInsert rest i v

/-- The loop `for i, (title, url) in enumerate(chapter_links): if
self._sanitize_filename(title) + ".md" == filename: ...; break` — the first
discovery index whose recomputed sanitized filename matches. -/
def findOrigIdxAux (fn : String) : Nat → List (String × String) → Option Nat
  | _, [] => none
  | i, tu :: rest =>
    if sanitize_filename tu.1 ++ ".md" = fn then some i
    else findOrigIdxAux fn (i + 1) rest

/-- Index recovery by filename re-matching in `run`. -/
def findOrigIdx (links : List (String × String)) (fn : String) : Option Nat :=
  findOrigIdxAux fn 0 links

/-- The mutable state of `run`'s `as_completed` loop: the in-memory metadata
ledger, `results_dict`, `changed_chapters`, the printed per-chapter warnings,
and the chapter files written. -/
structure RunState where
  meta : Ledger
  results : ResultsDict
  changed_chapters : List String
  warnings : List String
  writes : List (String × String)

/-- The body of one `as_completed` iteration once the completed task's
`(title, url)` is known: await the chapter coroutine; on success record the
result under its re-derived original index, extend `changed_chapters` when
changed, and write the chapter file; on `ScraperError` print a warning and
continue. -/
def runStep1 (hashFn : String → String) (fetch : String → Except String String)
    (extract : String → Except String String) (now : String)
    (links : List (String × String)) (st : RunState) (title url : String) :
    RunState :=
  match process_chapter hashFn (fetch url) extract st.meta title url now with
  | .ok (m', filename, content, changed) =>
    { meta := m'
      results :=
        match findOrigIdx links filename with
        | some i => dictInsert st.results i (filename, content)
        | none => st.results
      changed_chapters :=
        if changed then st.changed_chapters ++ [filename]
        else st.changed_chapters
      warnings := st.warnings
      writes := st.writes ++ [(filename, content)] }
  | .error e => { st with warnings := st.warnings ++ [e] }

/-- One iteration of the `as_completed` loop for the task of discovery index
`j`. -/
def runStep (hashFn : String → String) (fetch : String → Except String String)
    (extract : String → Except String String) (now : String)
    (links : List (String × String)) (st : RunState) (j : Nat) : RunState :=
  match links[j]? with
  | none => st
  | some (title, url) => runStep1 hashFn fetch extract now links st title url

/-- Loop entry state: ledger as loaded, everything else empty. -/
def initState (m0 : Ledger) : RunState :=
  ⟨m0, [], [], [], []⟩

/-- The whole `as_completed` loop of `run`: tasks finish in the arbitrary
order `order` (a sequence of discovery indices); the single-threaded event
loop serializes their effects on the shared state. -/
def runLoop (hashFn : String → String) (fetch : String → Except String String)
    (extract : String → Except String String) (now : String)
    (links : List (String × String)) (order : List Nat) (m0 : Ledger) :
    RunState :=
  order.foldl (runStep hashFn fetch extract now links) (initState m0)

/-- `results = [results_dict[i] for i in sorted(results_dict.keys())]`: the
keys are discovery indices, so iterating `i` over `0..n-1` enumerates them in
sorted order. -/
def orderedResults (st : RunState) (n : Nat) : List (String × String) :=
  (List.range n).filterMap (dictLookup st.results)

/-- The outcome of one chapter's work for known `(title, url)`:
`some (filename, content)` when fetch and extraction succeed, `none`
otherwise. -/
def chapterOutcome (fetch : String → Except String String)
    (extract : String → Except String String) (title url : String) :
    Option (String × String) :=
  match fetch url with
  | .error _ => none
  | .ok html =>
    match extract html with
    | .error _ => none
    | .ok markdown_content => some (sanitize_filename title ++ ".md", markdown_content)

/-- The outcome of the chapter task of discovery index `j`, as a pure
function of the injected fetch/extract outcomes. -/
def taskOutcome (fetch : String → Except String String)
    (extract : String → Except String String)
    (links : List (String × String)) (j : Nat) : Option (String × String) :=
  match links[j]? with
  | none => none
  | some (title, url) => chapterOutcome fetch extract title url

/-- The `ScraperError` message of one chapter's work for known
`(title, url)`, when its fetch or extraction fails. -/
def chapterError (fetch : String → Except String String)
    (extract : String → Except String String) (title url : String) :
    Option String :=
  match fetch url with
  | .error e => some ("Error processing chapter '" ++ title ++ "': " ++ e)
  | .ok html =>
    match extract html with
    | .error e => some ("Error processing chapter '" ++ title ++ "': " ++ e)
    | .ok _ => none

/-- The `ScraperError` message of the chapter task of discovery index `j`,
when its fetch or extraction fails. -/
def taskError (fetch : String → Except String String)
    (extract : String → Except String String)
    (links : List (String × String)) (j : Nat) : Option String :=
  match links[j]? with
  | none => none
  | some (title, url) => chapterError fetch extract title url

/-- A table-of-contents anchor as consumed by `extract_chapter_links`: its
`href` attribute (`link.get('href')`, possibly absent) and its stripped
visible text (`link.get_text(strip=True)`).  HTML parsing itself is
BeautifulSoup, an external collaborator. -/
structure Anchor where
  href : Option String
  text : String

/-- `base_url` of the default `Config` in `src/config.py`. -/
def defaultBaseUrl : String := "https://learn.omacom.io/2/the-omarchy-manual"

/-- The substring required of every accepted chapter URL at line 153 of
`src/scraper.py`. -/
def nsPat : List Char := "/the-omarchy-manual/".data

/-- Split a character list at the first occurrence of `://`. -/
def splitScheme : List Char → Option (List Char × List Char)
  | [] => none
  | c :: rest =>
    if [':', '/', '/'].isPrefixOf (c :: rest) then some ([], rest.drop 2)
    else (splitScheme rest).map (fun p => (c :: p.1, p.2))

/-- The `scheme://host` part of an absolute URL (the whole string when no
`://` is present). -/
def origin (base : String) : String :=
  match splitScheme base.data with
  | some (sch, rest) =>
    String.mk (sch ++ ':' :: '/' :: '/' :: rest.takeWhile (fun c => c ≠ '/'))
  | none => base

/-- Everything up to and including the last `/` of a URL. -/
def dropLastSegment (s : String) : String :=
  String.mk ((s.data.reverse.dropWhile (fun c => c ≠ '/')).reverse)

/-- Scan the tail of a scheme: RFC-style scheme characters
(`[a-zA-Z0-9+.-]*`) followed by `:`. -/
def scanScheme : List Char → Bool
  | [] => false
  | c :: rest =>
    if c = ':' then true
    else if c.isAlphanum || c = '+' || c = '-' || c = '.' then scanScheme rest
    else false

/-- The URL carries a scheme: a leading letter, then scheme characters up to
a `:` (as `urllib.parse` detects schemes). -/
def hasScheme : List Char → Bool
  | [] => false
  | c :: rest => c.isAlpha && scanScheme rest

/-- Modelled from `urllib.parse.urljoin`, restricted to the inputs in play in
`extract_chapter_links`: an absolute `http(s)` base, and an `href` that is
root-relative (starting with `/`, resolved against the site origin), carries
a scheme (returned unchanged, as `urljoin` does for a scheme different from
the base's — the same-scheme corner cannot reach this call because hrefs
starting with `http` pass through at line 147; scheme case-normalization is
not modelled), or is relative (no `..` segments, replacing the base's last
path segment). -/
def urljoin (base url : String) : String :=
  if ['/'].isPrefixOf url.data then origin base ++ url
  else if hasScheme url.data then url
  else dropLastSegment base ++ url

/-- Lines 144–149 of `src/scraper.py`: root-relative hrefs resolve against
`base_url`, hrefs starting with `http` pass through, all others resolve
against `full_url = base_url + query_param`. -/
def resolveHref (base_url query_param href : String) : String :=
  if ['/'].isPrefixOf href.data then urljoin base_url href
  else if ['h', 't', 't', 'p'].isPrefixOf href.data then href
  else urljoin (base_url ++ query_param) href

/-- The per-anchor qualification of `extract_chapter_links` apart from the
de-duplication against earlier accepted links: non-empty href and text, the
namespace substring check, and the rejection of empty or leftover-`Open`
titles.  Returns the `(clean_title, full_href)` candidate when they all
pass. -/
def candOf (base_url query_param : String) (a : Anchor) :
    Option (String × String) :=
  match a.href with
  | none => none
  | some href =>
    if (href != "") && (a.text != "") then
      let clean_title := cleanTitle a.text
      let full_href := resolveHref base_url query_param href
      if containsSub nsPat full_href.data && (clean_title != "") &&
          (clean_title != "Open")
      then some (clean_title, full_href)
      else none
    else none

/-- The anchor loop of `extract_chapter_links` (lines 135–155): accumulate
`(clean_title, full_href)` pairs in document order.  The source's single
conjunction at lines 139–154 is factored: `candOf` performs the per-anchor
checks and computes `(clean_title, full_href)`, and the remaining
`full_href not in [url for _, url in chapter_links]` conjunct is the
de-duplication against the accumulator. -/
def extractLinksAux (base_url query_param : String) :
    List (String × String) → List Anchor → List (String × String)
  | acc, [] => acc
  | acc, a :: rest =>
    match candOf base_url query_param a with
    | none => extractLinksAux base_url query_param acc rest
    | some ctfu =>
      if ctfu.2 ∈ acc.map Prod.snd then
        extractLinksAux base_url query_param acc rest
      else extractLinksAux base_url query_param (acc ++ [ctfu]) rest

/-- `extract_chapter_links` from `src/scraper.py`, as a function of the TOC
anchors found in the fetched root page. -/
def extract_chapter_links (base_url query_param : String)
    (anchors : List Anchor) : List (String × String) :=
  extractLinksAux base_url query_param [] anchors

/-- Model of `re.sub(r'\n\s*\n\s*\n', '\n\n', s)` at line 189 of
`src/scraper.py`.  With a greedy, backtracking `\s*`, a match starts at a
newline whose maximal whitespace run contains at least 3 newlines, extends
exactly to the last newline of that run, and is replaced by two newlines;
scanning resumes after the match, so the whitespace following the run's last
newline is preserved. -/
def collapse3 : List Char → List Char
  | [] => []
  | c :: rest =>
    if h : c = '\n' ∧
        3 ≤ (((c :: rest).takeWhile isPySpace).count '\n') then
      '\n' :: '\n' :: collapse3
        ((((c :: rest).takeWhile isPySpace).reverse.takeWhile
            (fun d => d != '\n')).reverse ++
          (c :: rest).drop ((c :: rest).takeWhile isPySpace).length)
    else c :: collapse3 rest
termination_by l => l.length
decreasing_by
  · have key : ∀ L : List Char, '\n' ∈ L →
        (L.takeWhile (fun d => d != '\n')).length < L.length := by
      intro L
      induction L with
      | nil => intro hL; cases hL
      | cons a as ih =>
        intro hL
        by_cases hx : (a != '\n') = true
        · have ha : ¬a = '\n' := by simpa using hx
          have h' : '\n' ∈ as := by
            rcases List.mem_cons.1 hL with h'' | h''
            · exact absurd h''.symm ha
            · exact h''
          rw [List.takeWhile_cons, if_pos hx, List.length_cons,
            List.length_cons]
          exact Nat.succ_lt_succ (ih h')
        · rw [List.takeWhile_cons, if_neg hx]
          simp
    have hmem : '\n' ∈ ((c :: rest).takeWhile isPySpace) :=
      List.count_pos_iff.1 (by omega)
    have hlt := key ((c :: rest).takeWhile isPySpace).reverse
      (List.mem_reverse.2 hmem)
    have hle : ((c :: rest).takeWhile isPySpace).length ≤ (c :: rest).length :=
      (List.takeWhile_sublist isPySpace).length_le
    simp only [List.length_append, List.length_reverse, List.length_drop,
      List.length_cons] at *
    omega
  · simp only [List.length_cons]
    omega

/-- A run of `m` newline characters. -/
def nlRun (m : Nat) : List Char :=
  List.replicate m '\n'

/-- The first character, if any, is not whitespace. -/
def headNotWs : List Char → Bool
  | [] => true
  | c :: _ => !isPySpace c

/-- The last character, if any, is not whitespace. -/
def lastNotWs (l : List Char) : Bool :=
  headNotWs l.reverse

/-- Python's `s.strip()` on the character level (the whitespace in play is
ASCII). -/
def stripEnds (l : List Char) : List Char :=
  ((l.dropWhile isPySpace).reverse.dropWhile isPySpace).reverse

/-- Lines 186–190 of `_extract_content`: the post-processing applied to the
Markdown produced by the (external) `markdownify` conversion — collapse
newline runs, then strip leading/trailing whitespace. -/
def extract_cleanup (markdown_content : String) : String :=
  String.mk (stripEnds (collapse3 markdown_content.data))

/-- Interleave segments and newline runs:
`assemble s0 [(m1, s1), (m2, s2), …] = s0 ++ nlRun m1 ++ s1 ++ nlRun m2 ++ …`. -/
def assemble : List Char → List (Nat × List Char) → List Char
  | s0, [] => s0
  | s0, (m, s) :: rest => s0 ++ (nlRun m ++ assemble s rest)

/-- The lifecycle of one chapter task around `async with semaphore` at lines
192–222: queued, holding a semaphore slot, or finished (successfully or with
a recorded failure). -/
inductive TaskPhase where
  | waiting : TaskPhase
  | running : TaskPhase
  | finished : Bool → TaskPhase
deriving DecidableEq

/-- The task currently holds a semaphore slot. -/
def isRunning : TaskPhase → Bool
  | .running => true
  | _ => false

/-- The task has completed or failed. -/
def isFinishedPhase : TaskPhase → Bool
  | .finished _ => true
  | _ => false

/-- The shared state of `run`'s task pool: the value of
`asyncio.Semaphore(max_concurrent)` and the phase of each chapter task. -/
structure PoolState where
  avail : Nat
  tasks : List TaskPhase

/-- Number of tasks currently inside the semaphore-guarded region. -/
def countRunning (ts : List TaskPhase) : Nat :=
  ts.countP isRunning

/-- Interleaving semantics of the cooperative event loop: a waiting task may
acquire a slot when the semaphore is positive; a running task may finish
(successfully or not), releasing its slot.  These are the only transitions
touching the gate. -/
inductive PoolStep : PoolState → PoolState → Prop where
  | acquire (s : PoolState) (i : Nat) (h : s.tasks[i]? = some .waiting)
      (ha : 0 < s.avail) :
      PoolStep s ⟨s.avail - 1, s.tasks.set i .running⟩
  | finish (s : PoolState) (i : Nat) (ok : Bool)
      (h : s.tasks[i]? = some .running) :
      PoolStep s ⟨s.avail + 1, s.tasks.set i (.finished ok)⟩

/-- Start of a run: a fresh semaphore of `nSlots` permits and `nTasks`
queued chapter tasks. -/
def initPool (nSlots nTasks : Nat) : PoolState :=
  ⟨nSlots, List.replicate nTasks .waiting⟩

/-- States reachable from the start of a run. -/
def PoolReach (nSlots nTasks : Nat) (s : PoolState) : Prop :=
  Relation.ReflTransGen PoolStep (initPool nSlots nTasks) s

/-- Remaining work: 2 per queued task, 1 per running task. -/
def phaseWeight : TaskPhase → Nat
  | .waiting => 2
  | .running => 1
  | .finished _ => 0

/-- Total remaining work of a pool state. -/
def poolMeasure (s : PoolState) : Nat :=
  (s.tasks.map phaseWeight).sum

lemma mem_replaceHostile {c : Char} {l : List Char} (h : c ∈ replaceHostile l) :
    isHostile c = false := by
  rcases List.mem_map.1 h with ⟨a, _, rfl⟩
  by_cases ha : isHostile a = true
  · rw [if_pos ha]; decide
  · rw [if_neg ha]; exact eq_false_of_ne_true ha

lemma mem_collapseWsAux {c : Char} {b : Bool} {l : List Char}
    (h : c ∈ collapseWsAux b l) : isPySpace c = false ∧ (c = '_' ∨ c ∈ l) := by
  induction l generalizing b with
  | nil => simp [collapseWsAux] at h
  | cons a rest ih =>
    by_cases ha : isPySpace a = true
    · by_cases hb : b = true
      · rw [collapseWsAux, if_pos ha, if_pos hb] at h
        rcases ih h with ⟨h1, h2⟩
        exact ⟨h1, h2.imp id (List.mem_cons_of_mem a)⟩
      · rw [collapseWsAux, if_pos ha, if_neg hb] at h
        rcases List.mem_cons.1 h with rfl | h'
        · exact ⟨by decide, Or.inl rfl⟩
        · rcases ih h' with ⟨h1, h2⟩
          exact ⟨h1, h2.imp id (List.mem_cons_of_mem a)⟩
    · rw [collapseWsAux, if_neg ha] at h
      rcases List.mem_cons.1 h with rfl | h'
      · exact ⟨eq_false_of_ne_true ha, Or.inr (List.mem_cons_self c rest)⟩
      · rcases ih h' with ⟨h1, h2⟩
        exact ⟨h1, h2.imp id (List.mem_cons_of_mem a)⟩

lemma mem_stripDotUnd {c : Char} {l : List Char} (h : c ∈ stripDotUnd l) : c ∈ l := by
  unfold stripDotUnd at h
  rw [List.mem_reverse] at h
  have h2 := (List.dropWhile_sublist isDotUnd).subset h
  rw [List.mem_reverse] at h2
  exact (List.dropWhile_sublist isDotUnd).subset h2

lemma dropWhile_head_false {p : Char → Bool} {l : List Char} {c : Char}
    {rest : List Char} (h : l.dropWhile p = c :: rest) : p c = false := by
  induction l with
  | nil => simp [List.dropWhile] at h
  | cons a as ih =>
    cases hpa : p a with
    | true => rw [List.dropWhile, hpa] at h; exact ih h
    | false =>
      rw [List.dropWhile, hpa] at h
      cases h
      exact hpa

lemma stripDotUnd_isPrefix (l : List Char) :
    ∃ u, stripDotUnd l ++ u = l.dropWhile isDotUnd := by
  have hsuf : ∃ u, u ++ (stripDotUnd l).reverse = (l.dropWhile isDotUnd).reverse := by
    unfold stripDotUnd
    rw [List.reverse_reverse]
    exact (List.dropWhile_suffix isDotUnd)
  rcases hsuf with ⟨u, hu⟩
  refine ⟨u.reverse, ?_⟩
  have := congrArg List.reverse hu
  rwa [List.reverse_append, List.reverse_reverse, List.reverse_reverse] at this

lemma stripDotUnd_head_false {l : List Char} {c : Char} {rest : List Char}
    (h : stripDotUnd l = c :: rest) : isDotUnd c = false := by
  rcases stripDotUnd_isPrefix l with ⟨u, hu⟩
  rw [h] at hu
  exact dropWhile_head_false hu.symm

/-- C4 counterexample: the spec's sample filename `Advanced__I_O___Networking.md`
is not what `_sanitize_filename` produces for the title
`Advanced: I/O & Networking` — the ampersand is neither hostile nor
whitespace, so it is kept. -/
theorem sanitize_filename_sample_ne :
    sanitize_filename "Advanced: I/O & Networking" ++ ".md" ≠
      "Advanced__I_O___Networking.md" := by decide

/-- C4 (amended): sanitization replaces each of `<>:"/\|?*` with `_`, collapses
whitespace runs to one `_`, trims leading/trailing `.`/`_` and truncates to
100 characters — hence the result has no hostile and no whitespace
characters, length at most 100, never starts with `.` or `_`, and the title
`Advanced: I/O & Networking` sanitizes to `Advanced__I_O_&_Networking.md`
(the ampersand is kept). -/
theorem sanitize_filename_spec (title : String) :
    (sanitize_filename title).length ≤ 100 ∧
    (∀ c ∈ (sanitize_filename title).data, isHostile c = false ∧ isPySpace c = false) ∧
    (∀ c rest, (sanitize_filename title).data = c :: rest → isDotUnd c = false) ∧
    sanitize_filename "Advanced: I/O & Networking" ++ ".md" =
      "Advanced__I_O_&_Networking.md" := by
  refine ⟨?_, ?_, ?_, by decide⟩
  · show ((stripDotUnd (collapseWs (replaceHostile title.data))).take 100).length ≤ 100
    rw [List.length_take]
    exact min_le_left _ _
  · intro c hc
    have hc1 : c ∈ stripDotUnd (collapseWs (replaceHostile title.data)) :=
      (List.take_sublist 100 _).subset hc
    have hc2 := mem_stripDotUnd hc1
    rcases mem_collapseWsAux hc2 with ⟨hsp, hor⟩
    rcases hor with rfl | hmem
    · exact ⟨by decide, hsp⟩
    · exact ⟨mem_replaceHostile hmem, hsp⟩
  · intro c rest h
    have : (sanitize_filename title).data =
        (stripDotUnd (collapseWs (replaceHostile title.data))).take 100 := rfl
    rw [this] at h
    rcases hs : stripDotUnd (collapseWs (replaceHostile title.data)) with _ | ⟨d, ds⟩
    · rw [hs] at h; simp at h
    · rw [hs] at h
      have ht : List.take 100 (d :: ds) = d :: List.take 99 ds := rfl
      rw [ht] at h
      cases h
      exact stripDotUnd_head_false hs

/-- Witness for C4: the amended theorem applied at the one-character title
`x`, discharging the membership and head hypotheses concretely. -/
theorem sanitize_filename_spec_witness :
    (isHostile 'x' = false ∧ isPySpace 'x' = false) ∧ isDotUnd 'x' = false :=
  ⟨(sanitize_filename_spec "x").2.1 'x' (by decide),
   (sanitize_filename_spec "x").2.2.1 'x' [] (by decide)⟩

lemma isPrefixOf_append_self (p s : List Char) : p.isPrefixOf (p ++ s) = true := by
  induction p with
  | nil => simp [List.isPrefixOf]
  | cons a as ih => simp [List.isPrefixOf, ih]

lemma stripOpenAll_cons (c : Char) (rest : List Char)
    (h : patOpen.isPrefixOf (c :: rest) = false) :
    stripOpenAll (c :: rest) = c :: stripOpenAll rest := by
  rw [stripOpenAll.eq_def]
  split
  · next heq => simp at heq
  · next r heq =>
    cases heq
    rw [show patOpen.isPrefixOf ('O' :: 'p' :: 'e' :: 'n' :: ' ' :: r) = true by
      simp [patOpen, List.isPrefixOf]] at h
    cases h
  · rename_i heq
    cases heq
    rfl

lemma stripOpenAll_of_not_contains {l : List Char}
    (h : containsSub patOpen l = false) : stripOpenAll l = l := by
  induction l with
  | nil => rfl
  | cons c rest ih =>
    rw [containsSub, Bool.or_eq_false_iff] at h
    rw [stripOpenAll_cons c rest h.1, ih h.2]

/-- C5 counterexample: for the text `Open Open Sesame`, the code removes both
occurrences of `Open ` (Python `str.replace` replaces all occurrences), not
just the leading one, so the resulting title is `Sesame`, not
`Open Sesame`. -/
theorem cleanTitle_counterexample :
    cleanTitle "Open Open Sesame" = "Sesame" ∧
      cleanTitle "Open Open Sesame" ≠ "Open Sesame" := by decide

/-- C5 (amended): text not beginning with `Open ` is kept unmodified; text
beginning with `Open ` has every non-overlapping occurrence of `Open `
removed, left to right — in particular exactly the single leading prefix is
stripped whenever the remainder contains no further occurrence. -/
theorem cleanTitle_spec :
    (∀ t : String, patOpen.isPrefixOf t.data = false → cleanTitle t = t) ∧
    (∀ s : List Char, cleanTitle (String.mk (patOpen ++ s)) =
      String.mk (stripOpenAll s)) ∧
    (∀ s : List Char, containsSub patOpen s = false →
      cleanTitle (String.mk (patOpen ++ s)) = String.mk s) := by
  refine ⟨?_, ?_, ?_⟩
  · intro t h
    rw [cleanTitle, h]
    rfl
  · intro s
    rw [cleanTitle]
    show (if patOpen.isPrefixOf (patOpen ++ s) = true then _ else _) = _
    rw [isPrefixOf_append_self, if_pos rfl]
    have : stripOpenAll (patOpen ++ s) = stripOpenAll s := by
      show stripOpenAll ('O' :: 'p' :: 'e' :: 'n' :: ' ' :: s) = stripOpenAll s
      rw [stripOpenAll]
    rw [this]
  · intro s h
    rw [cleanTitle]
    show (if patOpen.isPrefixOf (patOpen ++ s) = true then _ else _) = _
    rw [isPrefixOf_append_self, if_pos rfl]
    have : stripOpenAll (patOpen ++ s) = stripOpenAll s := by
      show stripOpenAll ('O' :: 'p' :: 'e' :: 'n' :: ' ' :: s) = stripOpenAll s
      rw [stripOpenAll]
    rw [this, stripOpenAll_of_not_contains h]

/-- Witness for C5: the amended theorem applied to the text `Open Sesame`
(prefix present, no further occurrence) and to `Intro` (no prefix). -/
theorem cleanTitle_spec_witness :
    cleanTitle "Intro" = "Intro" ∧ cleanTitle "Open Sesame" = "Sesame" :=
  ⟨cleanTitle_spec.1 "Intro" (by decide),
   cleanTitle_spec.2.2 ['S', 'e', 's', 'a', 'm', 'e'] (by decide)⟩

lemma lookup_setLedger_self (m : Ledger) (u : String) (e : MetaEntry) :
    lookupLedger (setLedger m u e) u = some e := by
  induction m with
  | nil => simp [setLedger, lookupLedger]
  | cons kv rest ih =>
    obtain ⟨k, v⟩ := kv
    by_cases hk : k = u
    · subst hk
      simp [setLedger, lookupLedger]
    · simp [setLedger, lookupLedger, hk, ih]

lemma lookup_setLedger_other (m : Ledger) (u u' : String) (e : MetaEntry)
    (h : u' ≠ u) : lookupLedger (setLedger m u e) u' = lookupLedger m u' := by
  induction m with
  | nil => simp [setLedger, lookupLedger, Ne.symm h]
  | cons kv rest ih =>
    obtain ⟨k, v⟩ := kv
    by_cases hk : k = u
    · subst hk
      simp [setLedger, lookupLedger, Ne.symm h]
    · by_cases hk' : k = u' <;> simp [setLedger, lookupLedger, hk, hk', ih, h]

/-- C2: a record-and-compare step stores the fresh entry for the URL
unconditionally, and returns `changed = true` iff the new digest differs from
the previously stored one, a URL with no prior entry always counting as
changed (the new digest is a computed SHA-256 hex digest, hence nonempty). -/
theorem recordAndCompare_spec (m : Ledger) (url title filename digest now : String)
    (hd : digest ≠ "") :
    lookupLedger (recordAndCompare m url title filename digest now).1 url =
      some ⟨title, filename, digest, now, url⟩ ∧
    ((recordAndCompare m url title filename digest now).2 = true ↔
      (match lookupLedger m url with
       | some e => digest ≠ e.hash
       | none => True)) := by
  constructor
  · exact lookup_setLedger_self m url _
  · show (digest != _) = true ↔ _
    rw [bne_iff_ne]
    cases hl : lookupLedger m url with
    | none => simp [hl, hd]
    | some e => simp [hl]

/-- Witness for C2: applying the theorem with an empty ledger and the digest
`"d"`, so the absent entry counts as changed and the fresh entry is stored. -/
theorem recordAndCompare_spec_witness :
    lookupLedger (recordAndCompare [] "u" "t" "f" "d" "n").1 "u" =
      some ⟨"t", "f", "d", "n", "u"⟩ ∧
    ((recordAndCompare [] "u" "t" "f" "d" "n").2 = true ↔
      (match lookupLedger ([] : Ledger) "u" with
       | some e => "d" ≠ e.hash
       | none => True)) :=
  recordAndCompare_spec [] "u" "t" "f" "d" "n" (by decide)

lemma runStep_some {hashFn : String → String}
    {fetch extract : String → Except String String} {now : String}
    {links : List (String × String)} {st : RunState} {j : Nat}
    {title url : String} (hj : links[j]? = some (title, url)) :
    runStep hashFn fetch extract now links st j =
      runStep1 hashFn fetch extract now links st title url := by
  simp [runStep, hj]

lemma runStep_none {hashFn : String → String}
    {fetch extract : String → Except String String} {now : String}
    {links : List (String × String)} {st : RunState} {j : Nat}
    (hj : links[j]? = none) :
    runStep hashFn fetch extract now links st j = st := by
  simp [runStep, hj]

lemma chapterOutcome_none_iff {fetch extract : String → Except String String}
    {title url : String} :
    chapterOutcome fetch extract title url = none ↔
      ∃ e, chapterError fetch extract title url = some e := by
  cases hf : fetch url with
  | error e => simp [chapterOutcome, chapterError, hf]
  | ok html =>
    cases he : extract html with
    | error e => simp [chapterOutcome, chapterError, hf, he]
    | ok mdc => simp [chapterOutcome, chapterError, hf, he]

lemma runStep1_error {hashFn : String → String}
    {fetch extract : String → Except String String} {now : String}
    {links : List (String × String)} {st : RunState} {title url e : String}
    (he : chapterError fetch extract title url = some e) :
    runStep1 hashFn fetch extract now links st title url =
      { st with warnings := st.warnings ++ [e] } := by
  cases hf : fetch url with
  | error e' =>
    simp only [chapterError, hf] at he
    cases he
    simp [runStep1, process_chapter, hf]
  | ok html =>
    cases hx : extract html with
    | error e' =>
      simp only [chapterError, hf, hx] at he
      cases he
      simp [runStep1, process_chapter, hf, hx]
    | ok mdc =>
      simp only [chapterError, hf, hx] at he
      cases he

lemma runStep1_ok {hashFn : String → String}
    {fetch extract : String → Except String String} {now : String}
    {links : List (String × String)} {st : RunState} {title url fn mdc : String}
    (hok : chapterOutcome fetch extract title url = some (fn, mdc)) :
    runStep1 hashFn fetch extract now links st title url =
      { meta := setLedger st.meta url ⟨title, fn, hashFn mdc, now, url⟩
        results :=
          match findOrigIdx links fn with
          | some i => dictInsert st.results i (fn, mdc)
          | none => st.results
        changed_chapters :=
          if (hashFn mdc !=
              (Option.map (fun e => e.hash) (lookupLedger st.meta url)).getD "")
          then st.changed_chapters ++ [fn]
          else st.changed_chapters
        warnings := st.warnings
        writes := st.writes ++ [(fn, mdc)] } := by
  cases hf : fetch url with
  | error e' => simp only [chapterOutcome, hf] at hok; cases hok
  | ok html =>
    cases hx : extract html with
    | error e' => simp only [chapterOutcome, hf, hx] at hok; cases hok
    | ok mdc' =>
      simp only [chapterOutcome, hf, hx] at hok
      cases hok
      simp [runStep1, process_chapter, hf, hx, recordAndCompare]

/-- C10: if the fetch or the extraction of a chapter fails, the loop
iteration for that chapter leaves the in-memory metadata ledger exactly as it
was; the ledger entry for the chapter's URL is written only when fetch,
extraction and hashing all succeed. -/
theorem failure_leaves_ledger (hashFn : String → String)
    (fetch extract : String → Except String String) (now : String)
    (links : List (String × String)) (st : RunState) (j : Nat)
    (title url : String) (hj : links[j]? = some (title, url)) :
    (taskOutcome fetch extract links j = none →
      (runStep hashFn fetch extract now links st j).meta = st.meta) ∧
    (∀ fn mdc, taskOutcome fetch extract links j = some (fn, mdc) →
      (runStep hashFn fetch extract now links st j).meta =
        setLedger st.meta url ⟨title, fn, hashFn mdc, now, url⟩) := by
  constructor
  · intro hfail
    rw [taskOutcome, hj] at hfail
    rcases chapterOutcome_none_iff.1 hfail with ⟨e, he⟩
    rw [runStep_some hj, runStep1_error he]
  · intro fn mdc hsucc
    rw [taskOutcome, hj] at hsucc
    rw [runStep_some hj, runStep1_ok hsucc]

/-- Witness for C10: a single chapter whose fetch fails; the ledger of the
loop state is unchanged by its iteration. -/
theorem failure_leaves_ledger_witness :
    (runStep (fun s => s) (fun _ => .error "boom") (fun h => .ok h) "now"
      [("T", "u")] (initState []) 0).meta = (initState []).meta :=
  (failure_leaves_ledger (fun s => s) (fun _ => .error "boom") (fun h => .ok h)
    "now" [("T", "u")] (initState []) 0 "T" "u" rfl).1 rfl

lemma dictLookup_insert_self (d : ResultsDict) (i : Nat) (v : String × String) :
    dictLookup (dictInsert d i v) i = some v := by
  induction d with
  | nil => simp [dictInsert, dictLookup]
  | cons kv rest ih =>
    obtain ⟨k, w⟩ := kv
    by_cases hk : k = i
    · subst hk
      simp [dictInsert, dictLookup]
    · simp [dictInsert, dictLookup, hk, ih]

lemma dictLookup_insert_other (d : ResultsDict) (i i' : Nat) (v : String × String)
    (h : i' ≠ i) : dictLookup (dictInsert d i v) i' = dictLookup d i' := by
  induction d with
  | nil => simp [dictInsert, dictLookup, Ne.symm h]
  | cons kv rest ih =>
    obtain ⟨k, w⟩ := kv
    by_cases hk : k = i
    · subst hk
      simp [dictInsert, dictLookup, Ne.symm h]
    · by_cases hk' : k = i' <;> simp [dictInsert, dictLookup, hk, hk', ih, h]

lemma findOrigIdxAux_spec (fn : String) :
    ∀ (links : List (String × String)) (k j : Nat) (title url : String),
    links[j]? = some (title, url) →
    fn = sanitize_filename title ++ ".md" →
    (links.map fun tu => sanitize_filename tu.1 ++ ".md").Nodup →
    findOrigIdxAux fn k links = some (k + j) := by
  intro links
  induction links with
  | nil => intro k j title url hj _ _; simp at hj
  | cons tu rest ih =>
    intro k j title url hj hfn hnd
    rw [List.map_cons, List.nodup_cons] at hnd
    cases j with
    | zero =>
      rw [List.getElem?_cons_zero] at hj
      cases hj
      rw [findOrigIdxAux, if_pos hfn.symm, Nat.add_zero]
    | succ j' =>
      rw [List.getElem?_cons_succ] at hj
      have hne : ¬(sanitize_filename tu.1 ++ ".md" = fn) := by
        intro heq
        apply hnd.1
        rw [heq, hfn]
        have hmem : (title, url) ∈ rest := by
          have := List.getElem?_eq_some.1 hj
          rcases this with ⟨hlt, hget⟩
          exact hget ▸ List.getElem_mem hlt
        exact List.mem_map_of_mem (fun tu => sanitize_filename tu.1 ++ ".md") hmem
      rw [findOrigIdxAux, if_neg hne, ih (k + 1) j' title url hj hfn hnd.2]
      congr 1
      omega

lemma findOrigIdx_eq {links : List (String × String)} {j : Nat}
    {title url : String} (hj : links[j]? = some (title, url))
    (hnd : (links.map fun tu => sanitize_filename tu.1 ++ ".md").Nodup) :
    findOrigIdx links (sanitize_filename title ++ ".md") = some j := by
  have := findOrigIdxAux_spec (sanitize_filename title ++ ".md") links 0 j
    title url hj rfl hnd
  rwa [Nat.zero_add] at this

lemma chapterOutcome_fn {fetch extract : String → Except String String}
    {title url fn mdc : String}
    (h : chapterOutcome fetch extract title url = some (fn, mdc)) :
    fn = sanitize_filename title ++ ".md" := by
  cases hf : fetch url with
  | error e => simp only [chapterOutcome, hf] at h; cases h
  | ok html =>
    cases hx : extract html with
    | error e => simp only [chapterOutcome, hf, hx] at h; cases h
    | ok mdc' =>
      simp only [chapterOutcome, hf, hx] at h
      cases h
      rfl

lemma runStep_results {hashFn : String → String}
    {fetch extract : String → Except String String} {now : String}
    {links : List (String × String)}
    (hnd : (links.map fun tu => sanitize_filename tu.1 ++ ".md").Nodup)
    (st : RunState) (j i : Nat) :
    dictLookup (runStep hashFn fetch extract now links st j).results i =
      if i = j ∧ (taskOutcome fetch extract links j).isSome
      then taskOutcome fetch extract links j
      else dictLookup st.results i := by
  cases hj : links[j]? with
  | none =>
    rw [runStep_none hj]
    simp only [taskOutcome, hj, Option.isSome_none, Bool.false_eq_true,
      and_false, if_false]
  | some tu =>
    obtain ⟨title, url⟩ := tu
    rw [runStep_some hj]
    cases ho : chapterOutcome fetch extract title url with
    | none =>
      rcases chapterOutcome_none_iff.1 ho with ⟨e, he⟩
      rw [runStep1_error he]
      simp only [taskOutcome, hj, ho, Option.isSome_none, Bool.false_eq_true,
        and_false, if_false]
    | some fc =>
      obtain ⟨fn, mdc⟩ := fc
      have hfn : fn = sanitize_filename title ++ ".md" := chapterOutcome_fn ho
      rw [runStep1_ok ho]
      show dictLookup (match findOrigIdx links fn with
        | some i => dictInsert st.results i (fn, mdc)
        | none => st.results) i = _
      rw [hfn, findOrigIdx_eq hj hnd]
      simp only [taskOutcome, hj, ho, Option.isSome_some, and_true]
      by_cases hij : i = j
      · subst hij
        rw [if_pos rfl, ← hfn, dictLookup_insert_self]
      · rw [if_neg hij, dictLookup_insert_other _ _ _ _ hij]

lemma runLoop_results_aux {hashFn : String → String}
    {fetch extract : String → Except String String} {now : String}
    {links : List (String × String)}
    (hnd : (links.map fun tu => sanitize_filename tu.1 ++ ".md").Nodup) :
    ∀ (order : List Nat) (st : RunState) (i : Nat),
    dictLookup ((order.foldl (runStep hashFn fetch extract now links) st).results) i =
      if i ∈ order ∧ (taskOutcome fetch extract links i).isSome
      then taskOutcome fetch extract links i
      else dictLookup st.results i := by
  intro order
  induction order with
  | nil => intro st i; simp
  | cons j rest ih =>
    intro st i
    rw [List.foldl_cons, ih, runStep_results hnd]
    by_cases hij : i = j
    · subst hij
      by_cases hsm : (taskOutcome fetch extract links i).isSome = true <;>
        by_cases hmem : i ∈ rest <;>
          simp [hsm, hmem, List.mem_cons]
    · by_cases hsm : (taskOutcome fetch extract links i).isSome = true <;>
        by_cases hmem : i ∈ rest <;>
          simp [hsm, hmem, hij, List.mem_cons]

lemma filterMap_congrOn {α β : Type} (f g : α → Option β) :
    ∀ l : List α, (∀ a ∈ l, f a = g a) → l.filterMap f = l.filterMap g := by
  intro l
  induction l with
  | nil => intro _; rfl
  | cons a as ih =>
    intro h
    rw [List.filterMap_cons, List.filterMap_cons, h a (List.mem_cons_self a as),
      ih (fun b hb => h b (List.mem_cons_of_mem a hb))]

/-- C1: when the sanitized filenames of the discovered chapters are pairwise
distinct, the ordered results of the run list exactly the successfully
processed chapters, indexed by their position in the discovery list, for
every completion order of the concurrent per-chapter tasks. -/
theorem orderedResults_discovery_order (hashFn : String → String)
    (fetch extract : String → Except String String) (now : String)
    (links : List (String × String)) (order : List Nat) (m0 : Ledger)
    (hnd : (links.map fun tu => sanitize_filename tu.1 ++ ".md").Nodup)
    (hperm : List.Perm order (List.range links.length)) :
    orderedResults (runLoop hashFn fetch extract now links order m0)
        links.length =
      (List.range links.length).filterMap (taskOutcome fetch extract links) := by
  unfold orderedResults runLoop
  apply filterMap_congrOn
  intro i hi
  rw [runLoop_results_aux hnd]
  have hmem : i ∈ order := hperm.mem_iff.2 hi
  cases hsm : (taskOutcome fetch extract links i) with
  | none => simp [hmem, hsm, initState, dictLookup]
  | some v => simp [hmem, hsm, initState, dictLookup]

/-- Witness for C1: two chapters completing in reversed order still yield
results in discovery order. -/
theorem orderedResults_discovery_order_witness :
    orderedResults (runLoop (fun s => s) (fun u => .ok u) (fun h => .ok h) "t"
        [("A", "ua"), ("B", "ub")] [1, 0] []) 2 =
      [("A.md", "ua"), ("B.md", "ub")] := by
  have h := orderedResults_discovery_order (fun s => s) (fun u => .ok u)
    (fun h => .ok h) "t" [("A", "ua"), ("B", "ub")] [1, 0] []
    (by decide)
    (by rw [show List.range [("A", "ua"), ("B", "ub")].length = [0, 1] from rfl]
        exact List.Perm.swap 0 1 [])
  exact h.trans (by decide)

lemma chapterError_none_of_ok {fetch extract : String → Except String String}
    {title url : String} {fc : String × String}
    (h : chapterOutcome fetch extract title url = some fc) :
    chapterError fetch extract title url = none := by
  cases hf : fetch url with
  | error e => simp only [chapterOutcome, hf] at h; cases h
  | ok html =>
    cases hx : extract html with
    | error e => simp only [chapterOutcome, hf, hx] at h; cases h
    | ok mdc => simp only [chapterError, hf, hx]

lemma runStep_writes {hashFn : String → String}
    {fetch extract : String → Except String String} {now : String}
    {links : List (String × String)} (st : RunState) (j : Nat) :
    (runStep hashFn fetch extract now links st j).writes =
      st.writes ++ (taskOutcome fetch extract links j).toList := by
  cases hj : links[j]? with
  | none =>
    rw [runStep_none hj]
    simp [taskOutcome, hj]
  | some tu =>
    obtain ⟨title, url⟩ := tu
    rw [runStep_some hj]
    cases ho : chapterOutcome fetch extract title url with
    | none =>
      rcases chapterOutcome_none_iff.1 ho with ⟨e, he⟩
      rw [runStep1_error he]
      simp [taskOutcome, hj, ho]
    | some fc =>
      obtain ⟨fn, mdc⟩ := fc
      rw [runStep1_ok ho]
      simp [taskOutcome, hj, ho]

lemma runStep_warnings {hashFn : String → String}
    {fetch extract : String → Except String String} {now : String}
    {links : List (String × String)} (st : RunState) (j : Nat) :
    (runStep hashFn fetch extract now links st j).warnings =
      st.warnings ++ (taskError fetch extract links j).toList := by
  cases hj : links[j]? with
  | none =>
    rw [runStep_none hj]
    simp [taskError, hj]
  | some tu =>
    obtain ⟨title, url⟩ := tu
    rw [runStep_some hj]
    cases ho : chapterOutcome fetch extract title url with
    | none =>
      rcases chapterOutcome_none_iff.1 ho with ⟨e, he⟩
      rw [runStep1_error he]
      simp [taskError, hj, he]
    | some fc =>
      obtain ⟨fn, mdc⟩ := fc
      rw [runStep1_ok ho]
      simp [taskError, hj, chapterError_none_of_ok ho]

lemma runLoop_writes {hashFn : String → String}
    {fetch extract : String → Except String String} {now : String}
    {links : List (String × String)} :
    ∀ (order : List Nat) (st : RunState),
    ((order.foldl (runStep hashFn fetch extract now links) st).writes) =
      st.writes ++ order.filterMap (taskOutcome fetch extract links) := by
  intro order
  induction order with
  | nil => intro st; simp
  | cons j rest ih =>
    intro st
    rw [List.foldl_cons, ih, runStep_writes, List.filterMap_cons]
    cases taskOutcome fetch extract links j <;> simp

lemma runLoop_warnings {hashFn : String → String}
    {fetch extract : String → Except String String} {now : String}
    {links : List (String × String)} :
    ∀ (order : List Nat) (st : RunState),
    ((order.foldl (runStep hashFn fetch extract now links) st).warnings) =
      st.warnings ++ order.filterMap (taskError fetch extract links) := by
  intro order
  induction order with
  | nil => intro st; simp
  | cons j rest ih =>
    intro st
    rw [List.foldl_cons, ih, runStep_warnings, List.filterMap_cons]
    cases taskError fetch extract links j <;> simp

lemma task_excl {fetch extract : String → Except String String}
    {links : List (String × String)} {j : Nat} {tu : String × String}
    (hj : links[j]? = some tu) :
    ((taskOutcome fetch extract links j).isSome = true ∧
      taskError fetch extract links j = none) ∨
    (taskOutcome fetch extract links j = none ∧
      (taskError fetch extract links j).isSome = true) := by
  obtain ⟨title, url⟩ := tu
  rw [taskOutcome, taskError, hj]
  cases hf : fetch url with
  | error e => right; simp [chapterOutcome, chapterError, hf]
  | ok html =>
    cases hx : extract html with
    | error e => right; simp [chapterOutcome, chapterError, hf, hx]
    | ok mdc => left; simp [chapterOutcome, chapterError, hf, hx]

lemma out_err_length {fetch extract : String → Except String String}
    {links : List (String × String)} :
    ∀ (order : List Nat), (∀ j ∈ order, j < links.length) →
    (order.filterMap (taskOutcome fetch extract links)).length +
      (order.filterMap (taskError fetch extract links)).length = order.length := by
  intro order
  induction order with
  | nil => intro _; rfl
  | cons j rest ih =>
    intro hv
    have hjlt : j < links.length := hv j (List.mem_cons_self j rest)
    have hj : links[j]? = some links[j] := List.getElem?_eq_getElem hjlt
    have hrest := ih (fun k hk => hv k (List.mem_cons_of_mem j hk))
    rcases task_excl hj with ⟨h1, h2⟩ | ⟨h1, h2⟩
    · rcases Option.isSome_iff_exists.1 h1 with ⟨fc, hfc⟩
      rw [List.filterMap_cons_some hfc, List.filterMap_cons_none h2,
        List.length_cons, List.length_cons]
      omega
    · rcases Option.isSome_iff_exists.1 h2 with ⟨e, he⟩
      rw [List.filterMap_cons_some he, List.filterMap_cons_none h1,
        List.length_cons, List.length_cons]
      omega

/-- C8: when some chapter's fetch or extraction fails, the loop still runs to
completion: every successful chapter's file is written, every failing
chapter's error is caught and recorded as a warning, and the number of writes
plus the number of warnings equals the number of completed tasks (no task
aborts the run). -/
theorem failure_isolation (hashFn : String → String)
    (fetch extract : String → Except String String) (now : String)
    (links : List (String × String)) (order : List Nat) (m0 : Ledger)
    (hperm : List.Perm order (List.range links.length))
    (hfail : ∃ j ∈ order, taskError fetch extract links j ≠ none) :
    (∀ j ∈ order, ∀ fc, taskOutcome fetch extract links j = some fc →
      fc ∈ (runLoop hashFn fetch extract now links order m0).writes) ∧
    (∀ j ∈ order, ∀ e, taskError fetch extract links j = some e →
      e ∈ (runLoop hashFn fetch extract now links order m0).warnings) ∧
    (runLoop hashFn fetch extract now links order m0).writes.length +
      (runLoop hashFn fetch extract now links order m0).warnings.length =
      order.length := by
  have hvalid : ∀ j ∈ order, j < links.length := by
    intro j hj
    exact List.mem_range.1 (hperm.mem_iff.1 hj)
  have hw : (runLoop hashFn fetch extract now links order m0).writes =
      order.filterMap (taskOutcome fetch extract links) := by
    show (order.foldl (runStep hashFn fetch extract now links)
      (initState m0)).writes = _
    rw [runLoop_writes]
    simp [initState]
  have hwar : (runLoop hashFn fetch extract now links order m0).warnings =
      order.filterMap (taskError fetch extract links) := by
    show (order.foldl (runStep hashFn fetch extract now links)
      (initState m0)).warnings = _
    rw [runLoop_warnings]
    simp [initState]
  refine ⟨?_, ?_, ?_⟩
  · intro j hj fc hfc
    rw [hw]
    exact List.mem_filterMap.2 ⟨j, hj, hfc⟩
  · intro j hj e he
    rw [hwar]
    exact List.mem_filterMap.2 ⟨j, hj, he⟩
  · rw [hw, hwar]
    exact out_err_length order hvalid

/-- Witness for C8: chapter `A` fails to fetch while chapter `B` succeeds;
`B`'s output is written, `A`'s error is recorded, and both tasks complete. -/
theorem failure_isolation_witness :
    ("B.md", "ub") ∈ (runLoop (fun s => s)
      (fun u => if u = "ua" then .error "boom" else .ok u) (fun h => .ok h) "t"
      [("A", "ua"), ("B", "ub")] [0, 1] []).writes ∧
    "Error processing chapter 'A': boom" ∈ (runLoop (fun s => s)
      (fun u => if u = "ua" then .error "boom" else .ok u) (fun h => .ok h) "t"
      [("A", "ua"), ("B", "ub")] [0, 1] []).warnings := by
  have h := failure_isolation (fun s => s)
    (fun u => if u = "ua" then .error "boom" else .ok u) (fun h => .ok h) "t"
    [("A", "ua"), ("B", "ub")] [0, 1] []
    (by rw [show List.range [("A", "ua"), ("B", "ub")].length = [0, 1] from rfl])
    (by refine ⟨0, by decide, by decide⟩)
  exact ⟨h.1 1 (by decide) ("B.md", "ub") (by decide),
    h.2.1 0 (by decide) "Error processing chapter 'A': boom" (by decide)⟩

lemma chapterOutcome_total (pages toMd : String → String) (title url : String) :
    chapterOutcome (fun u => .ok (pages u)) (fun h => .ok (toMd h)) title url =
      some (sanitize_filename title ++ ".md", toMd (pages url)) := rfl

lemma step_good_pres {hashFn : String → String} {pages toMd : String → String}
    {now : String} {links : List (String × String)} (st : RunState) (j : Nat)
    (u : String)
    (h : (Option.map (fun e => e.hash) (lookupLedger st.meta u)) =
      some (hashFn (toMd (pages u)))) :
    (Option.map (fun e => e.hash) (lookupLedger
      (runStep hashFn (fun u => .ok (pages u)) (fun h => .ok (toMd h)) now
        links st j).meta u)) = some (hashFn (toMd (pages u))) := by
  cases hj : links[j]? with
  | none => rw [runStep_none hj]; exact h
  | some tu =>
    obtain ⟨title, url⟩ := tu
    rw [runStep_some hj, runStep1_ok (chapterOutcome_total pages toMd title url)]
    by_cases hu : u = url
    · subst hu
      show Option.map _ (lookupLedger (setLedger st.meta u _) u) = _
      rw [lookup_setLedger_self]
      rfl
    · show Option.map _ (lookupLedger (setLedger st.meta url _) u) = _
      rw [lookup_setLedger_other _ _ _ _ hu]
      exact h

lemma step_good_est {hashFn : String → String} {pages toMd : String → String}
    {now : String} {links : List (String × String)} (st : RunState) (j : Nat)
    (title u : String) (hj : links[j]? = some (title, u)) :
    (Option.map (fun e => e.hash) (lookupLedger
      (runStep hashFn (fun u => .ok (pages u)) (fun h => .ok (toMd h)) now
        links st j).meta u)) = some (hashFn (toMd (pages u))) := by
  rw [runStep_some hj, runStep1_ok (chapterOutcome_total pages toMd title u)]
  show Option.map _ (lookupLedger (setLedger st.meta u _) u) = _
  rw [lookup_setLedger_self]
  rfl

lemma fold_good_pres {hashFn : String → String} {pages toMd : String → String}
    {now : String} {links : List (String × String)} :
    ∀ (order : List Nat) (st : RunState) (u : String),
    (Option.map (fun e => e.hash) (lookupLedger st.meta u)) =
      some (hashFn (toMd (pages u))) →
    (Option.map (fun e => e.hash) (lookupLedger
      ((order.foldl (runStep hashFn (fun u => .ok (pages u))
        (fun h => .ok (toMd h)) now links) st)).meta u)) =
      some (hashFn (toMd (pages u))) := by
  intro order
  induction order with
  | nil => intro st u h; exact h
  | cons j rest ih =>
    intro st u h
    rw [List.foldl_cons]
    exact ih _ u (step_good_pres st j u h)

lemma fold_good_est {hashFn : String → String} {pages toMd : String → String}
    {now : String} {links : List (String × String)} :
    ∀ (order : List Nat) (st : RunState) (j : Nat) (title u : String),
    links[j]? = some (title, u) → j ∈ order →
    (Option.map (fun e => e.hash) (lookupLedger
      ((order.foldl (runStep hashFn (fun u => .ok (pages u))
        (fun h => .ok (toMd h)) now links) st)).meta u)) =
      some (hashFn (toMd (pages u))) := by
  intro order
  induction order with
  | nil => intro st j title u _ hmem; cases hmem
  | cons k rest ih =>
    intro st j title u hj hmem
    rw [List.foldl_cons]
    rcases List.mem_cons.1 hmem with rfl | hmem'
    · exact fold_good_pres rest _ u (step_good_est st j title u hj)
    · exact ih _ j title u hj hmem'

lemma run2_nochange {hashFn : String → String} {pages toMd : String → String}
    {now : String} {links : List (String × String)} :
    ∀ (order : List Nat) (st : RunState),
    (∀ (j : Nat) (t u : String), links[j]? = some (t, u) →
      (Option.map (fun e => e.hash) (lookupLedger st.meta u)) =
        some (hashFn (toMd (pages u)))) →
    ((order.foldl (runStep hashFn (fun u => .ok (pages u))
      (fun h => .ok (toMd h)) now links) st)).changed_chapters =
      st.changed_chapters := by
  intro order
  induction order with
  | nil => intro st _; rfl
  | cons j rest ih =>
    intro st hgood
    rw [List.foldl_cons]
    have hstep : ∀ (k : Nat) (t u : String), links[k]? = some (t, u) →
        (Option.map (fun e => e.hash) (lookupLedger
          (runStep hashFn (fun u => .ok (pages u)) (fun h => .ok (toMd h)) now
            links st j).meta u)) = some (hashFn (toMd (pages u))) := by
      intro k t u hk
      exact step_good_pres st j u (hgood k t u hk)
    rw [ih _ hstep]
    cases hj : links[j]? with
    | none => rw [runStep_none hj]
    | some tu =>
      obtain ⟨title, url⟩ := tu
      rw [runStep_some hj, runStep1_ok (chapterOutcome_total pages toMd title url)]
      show (if (hashFn (toMd (pages url)) !=
        (Option.map (fun e => e.hash) (lookupLedger st.meta url)).getD "")
        then _ else _) = _
      rw [hgood j title url hj]
      simp

/-- C3: with page content and conversion unchanged between runs, a second run
started from the ledger persisted by a first run that processed every chapter
reports zero changed chapters: each recomputed digest equals the stored
one. -/
theorem second_run_no_changes (hashFn : String → String)
    (pages toMd : String → String) (now1 now2 : String)
    (links : List (String × String)) (order1 order2 : List Nat) (m0 : Ledger)
    (hperm1 : List.Perm order1 (List.range links.length)) :
    (runLoop hashFn (fun u => .ok (pages u)) (fun h => .ok (toMd h)) now2 links
      order2
      ((runLoop hashFn (fun u => .ok (pages u)) (fun h => .ok (toMd h)) now1
        links order1 m0).meta)).changed_chapters = [] := by
  have hgood : ∀ (j : Nat) (t u : String), links[j]? = some (t, u) →
      (Option.map (fun e => e.hash) (lookupLedger
        ((runLoop hashFn (fun u => .ok (pages u)) (fun h => .ok (toMd h)) now1
          links order1 m0)).meta u)) = some (hashFn (toMd (pages u))) := by
    intro j t u hj
    have hjlt : j < links.length := (List.getElem?_eq_some.1 hj).1
    have hmem : j ∈ order1 := hperm1.mem_iff.2 (List.mem_range.2 hjlt)
    exact fold_good_est order1 (initState m0) j t u hj hmem
  exact run2_nochange order2
    (initState ((runLoop hashFn (fun u => .ok (pages u))
      (fun h => .ok (toMd h)) now1 links order1 m0).meta)) hgood

/-- Witness for C3: one chapter, both runs over the same page content; the
second run reports no changed chapters. -/
theorem second_run_no_changes_witness :
    (runLoop (fun s => "#" ++ s) (fun u => .ok u) (fun h => .ok h) "t2"
      [("A", "ua")] [0]
      ((runLoop (fun s => "#" ++ s) (fun u => .ok u) (fun h => .ok h) "t1"
        [("A", "ua")] [0] []).meta)).changed_chapters = [] :=
  second_run_no_changes (fun s => "#" ++ s) (fun u => u) (fun h => h) "t1" "t2"
    [("A", "ua")] [0] [0] []
    (by rw [show List.range [("A", "ua")].length = [0] from rfl])

lemma extractLinksAux_spec (base_url query_param : String) :
    ∀ (anchors : List Anchor) (acc : List (String × String)),
    ∃ t, extractLinksAux base_url query_param acc anchors = acc ++ t ∧
      List.Sublist t (anchors.filterMap (candOf base_url query_param)) ∧
      (∀ tu ∈ t, tu.2 ∉ acc.map Prod.snd) ∧
      ((acc.map Prod.snd).Nodup → ((acc ++ t).map Prod.snd).Nodup) ∧
      (∀ u : String, u ∉ acc.map Prod.snd →
        t.find? (fun tu => tu.2 == u) =
          (anchors.filterMap (candOf base_url query_param)).find?
            (fun tu => tu.2 == u)) := by
  intro anchors
  induction anchors with
  | nil =>
    intro acc
    refine ⟨[], by simp [extractLinksAux], List.Sublist.refl _, by simp, ?_, ?_⟩
    · intro h; simpa using h
    · intro u _; simp
  | cons a rest ih =>
    intro acc
    cases hcand : candOf base_url query_param a with
    | none =>
      have hskip : extractLinksAux base_url query_param acc (a :: rest) =
          extractLinksAux base_url query_param acc rest := by
        simp [extractLinksAux, hcand]
      rw [hskip, List.filterMap_cons_none hcand]
      exact ih acc
    | some ctfu =>
      obtain ⟨ct, fu⟩ := ctfu
      by_cases hmem : fu ∈ acc.map Prod.snd
      · have hskip : extractLinksAux base_url query_param acc (a :: rest) =
            extractLinksAux base_url query_param acc rest := by
          simp [extractLinksAux, hcand, hmem]
        rw [hskip, List.filterMap_cons_some hcand]
        obtain ⟨t, h1, h2, h3, h4, h5⟩ := ih acc
        refine ⟨t, h1, h2.cons _, h3, h4, ?_⟩
        intro u hu
        have hne : ¬(fu = u) := fun heq => hu (heq ▸ hmem)
        rw [List.find?_cons_of_neg _ (by simp [hne])]
        exact h5 u hu
      · have happ : extractLinksAux base_url query_param acc (a :: rest) =
            extractLinksAux base_url query_param (acc ++ [(ct, fu)]) rest := by
          simp [extractLinksAux, hcand, hmem]
        obtain ⟨t', h1, h2, h3, h4, h5⟩ := ih (acc ++ [(ct, fu)])
        refine ⟨(ct, fu) :: t', ?_, ?_, ?_, ?_, ?_⟩
        · rw [happ, h1, List.append_assoc]
          rfl
        · rw [List.filterMap_cons_some hcand]
          exact h2.cons₂ _
        · intro tu htu
          rcases List.mem_cons.1 htu with rfl | htu'
          · exact hmem
          · intro hin
            exact h3 tu htu' (by simp [hin])
        · intro hnd
          have hnd' : (((acc ++ [(ct, fu)]).map Prod.snd)).Nodup := by
            rw [List.map_append, List.nodup_append]
            refine ⟨hnd, by simp, ?_⟩
            intro x hx
            simp only [List.map_cons, List.map_nil, List.mem_cons,
              List.not_mem_nil, or_false]
            intro hxe
            exact hmem (hxe ▸ hx)
          have := h4 hnd'
          rwa [List.append_assoc] at this
        · intro u hu
          by_cases hufu : fu = u
          · subst hufu
            rw [List.find?_cons_of_pos _ (by simp),
              List.filterMap_cons_some hcand,
              List.find?_cons_of_pos _ (by simp)]
          · rw [List.find?_cons_of_neg _ (by simp [hufu]),
              List.filterMap_cons_some hcand,
              List.find?_cons_of_neg _ (by simp [hufu])]
            refine h5 u ?_
            rw [List.map_append]
            intro hin
            rcases List.mem_append.1 hin with hin1 | hin2
            · exact hu hin1
            · simp at hin2
              exact hufu hin2.symm

lemma candOf_mem_props {base_url query_param : String} {a : Anchor}
    {tu : String × String} (h : candOf base_url query_param a = some tu) :
    containsSub nsPat tu.2.data = true ∧ tu.1 ≠ "" ∧ tu.1 ≠ "Open" ∧
      ∃ href, a.href = some href ∧
        tu.2 = resolveHref base_url query_param href := by
  cases ha : a.href with
  | none => simp only [candOf, ha] at h; cases h
  | some href =>
    simp only [candOf, ha] at h
    by_cases hcond : ((href != "") && (a.text != "")) = true
    · rw [if_pos hcond] at h
      by_cases hqual : (containsSub nsPat
          (resolveHref base_url query_param href).data &&
          (cleanTitle a.text != "") && (cleanTitle a.text != "Open")) = true
      · rw [if_pos hqual] at h
        cases h
        rw [Bool.and_eq_true, Bool.and_eq_true] at hqual
        refine ⟨hqual.1.1, ?_, ?_, href, rfl, rfl⟩
        · exact bne_iff_ne.1 hqual.1.2
        · exact bne_iff_ne.1 hqual.2
      · rw [if_neg hqual] at h
        cases h
    · rw [if_neg hcond] at h
      cases h

/-- C6 counterexample: an anchor whose absolute href lies on a foreign host
but contains the substring `/the-omarchy-manual/` is accepted by discovery,
yet its URL is not in the manual's namespace by a path-prefix check against
the configured base URL; an href merely starting with the four characters
`http` passes through unresolved, so a returned URL need not even be
absolute (it has no `://`); and an href with a non-`http` scheme such as
`ftp://` is returned unchanged by `urljoin` and accepted, so a returned URL
need not use `http(s)` at all. -/
theorem discover_namespace_counterexample :
    (extract_chapter_links defaultBaseUrl ""
      [⟨some "https://evil.example/the-omarchy-manual/x", "Chapter X"⟩] =
      [("Chapter X", "https://evil.example/the-omarchy-manual/x")] ∧
    (defaultBaseUrl.data.isPrefixOf
      "https://evil.example/the-omarchy-manual/x".data) = false) ∧
    (extract_chapter_links defaultBaseUrl ""
      [⟨some "httpfoo/the-omarchy-manual/y", "Chapter Y"⟩] =
      [("Chapter Y", "httpfoo/the-omarchy-manual/y")] ∧
    containsSub "://".data "httpfoo/the-omarchy-manual/y".data = false) ∧
    (extract_chapter_links defaultBaseUrl ""
      [⟨some "ftp://host/the-omarchy-manual/z", "Chapter Z"⟩] =
      [("Chapter Z", "ftp://host/the-omarchy-manual/z")] ∧
    (['h', 't', 't', 'p'].isPrefixOf
      "ftp://host/the-omarchy-manual/z".data) = false) := by
  decide

/-- C6 (amended): for every list of TOC anchors, discovery returns entries in
source document order (a sublist of the per-anchor candidates) keeping the
first occurrence of each resolved URL; the returned URLs are pairwise
distinct and contain the substring `/the-omarchy-manual/` (a substring
check, not a path-prefix namespace check, and the URLs need not be absolute
nor use the `http(s)` scheme); entries with empty or placeholder (`Open`)
titles are rejected. -/
theorem discover_spec (anchors : List Anchor) :
    ((extract_chapter_links defaultBaseUrl "" anchors).map Prod.snd).Nodup ∧
    List.Sublist (extract_chapter_links defaultBaseUrl "" anchors)
      (anchors.filterMap (candOf defaultBaseUrl "")) ∧
    (∀ u : String,
      (extract_chapter_links defaultBaseUrl "" anchors).find?
          (fun tu => tu.2 == u) =
        (anchors.filterMap (candOf defaultBaseUrl "")).find?
          (fun tu => tu.2 == u)) ∧
    (∀ tu ∈ extract_chapter_links defaultBaseUrl "" anchors,
      containsSub nsPat tu.2.data = true ∧ tu.1 ≠ "" ∧ tu.1 ≠ "Open") := by
  obtain ⟨t, h1, h2, h3, h4, h5⟩ :=
    extractLinksAux_spec defaultBaseUrl "" anchors []
  have hout : extract_chapter_links defaultBaseUrl "" anchors = t := by
    rw [extract_chapter_links, h1, List.nil_append]
  refine ⟨?_, ?_, ?_, ?_⟩
  · rw [hout]
    have := h4 (by simp)
    rwa [List.nil_append] at this
  · rw [hout]
    exact h2
  · intro u
    rw [hout]
    exact h5 u (by simp)
  · intro tu htu
    rw [hout] at htu
    rcases List.mem_filterMap.1 (h2.subset htu) with ⟨a, _, hc⟩
    obtain ⟨hns, ht1, ht2, _⟩ := candOf_mem_props hc
    exact ⟨hns, ht1, ht2⟩

/-- Witness for C6: a single root-relative anchor with an `Open ` prefix; the
accepted entry carries the cleaned title and a resolved URL that passes the
substring check. -/
theorem discover_spec_witness :
    containsSub nsPat
      ("https://learn.omacom.io/the-omarchy-manual/a" : String).data = true ∧
    ("A" : String) ≠ "" ∧ ("A" : String) ≠ "Open" :=
  (discover_spec [⟨some "/the-omarchy-manual/a", "Open A"⟩]).2.2.2
    ("A", "https://learn.omacom.io/the-omarchy-manual/a") (by decide)

lemma collapse3_nil : collapse3 [] = [] := by
  rw [collapse3]

lemma collapse3_cons_neg {c : Char} {rest : List Char}
    (h : ¬(c = '\n' ∧ 3 ≤ (((c :: rest).takeWhile isPySpace).count '\n'))) :
    collapse3 (c :: rest) = c :: collapse3 rest := by
  rw [collapse3, dif_neg h]

lemma collapse3_cons_pos {c : Char} {rest : List Char}
    (h : c = '\n' ∧ 3 ≤ (((c :: rest).takeWhile isPySpace).count '\n')) :
    collapse3 (c :: rest) = '\n' :: '\n' :: collapse3
      ((((c :: rest).takeWhile isPySpace).reverse.takeWhile
          (fun d => d != '\n')).reverse ++
        (c :: rest).drop ((c :: rest).takeWhile isPySpace).length) := by
  rw [collapse3, dif_pos h]

lemma headNotWs_append {a : List Char} (b : List Char) (ha : a ≠ []) :
    headNotWs (a ++ b) = headNotWs a := by
  cases a with
  | nil => exact absurd rfl ha
  | cons c t => rfl

lemma lastNotWs_append (a : List Char) {b : List Char} (hb : b ≠ []) :
    lastNotWs (a ++ b) = lastNotWs b := by
  unfold lastNotWs
  rw [List.reverse_append]
  exact headNotWs_append _ (by simpa using hb)

lemma exists_not_ws_of_lastNotWs {l : List Char} (hne : l ≠ [])
    (h : lastNotWs l = true) : ∃ x ∈ l, isPySpace x = false := by
  cases hr : l.reverse with
  | nil => exact absurd (by simpa using hr) hne
  | cons c t =>
    unfold lastNotWs at h
    rw [hr] at h
    refine ⟨c, ?_, ?_⟩
    · rw [← List.mem_reverse, hr]
      exact List.mem_cons_self c t
    · simpa [headNotWs] using h

lemma takeWhile_append_of_not_all {p : Char → Bool} {a : List Char}
    (b : List Char) (hex : ∃ x ∈ a, p x = false) :
    (a ++ b).takeWhile p = a.takeWhile p := by
  induction a with
  | nil => rcases hex with ⟨x, hx, _⟩; cases hx
  | cons c cs ih =>
    by_cases hc : p c = true
    · rw [List.cons_append, List.takeWhile_cons, if_pos hc,
        List.takeWhile_cons, if_pos hc]
      congr 1
      apply ih
      rcases hex with ⟨x, hx, hpx⟩
      rcases List.mem_cons.1 hx with rfl | hx'
      · rw [hc] at hpx; cases hpx
      · exact ⟨x, hx', hpx⟩
    · rw [List.cons_append, List.takeWhile_cons, if_neg hc,
        List.takeWhile_cons, if_neg hc]

lemma takeWhile_length_lt_of_not_all {p : Char → Bool} {a : List Char}
    (hex : ∃ x ∈ a, p x = false) : (a.takeWhile p).length < a.length := by
  induction a with
  | nil => rcases hex with ⟨x, hx, _⟩; cases hx
  | cons c cs ih =>
    by_cases hc : p c = true
    · rw [List.takeWhile_cons, if_pos hc, List.length_cons, List.length_cons]
      apply Nat.succ_lt_succ
      apply ih
      rcases hex with ⟨x, hx, hpx⟩
      rcases List.mem_cons.1 hx with rfl | hx'
      · rw [hc] at hpx; cases hpx
      · exact ⟨x, hx', hpx⟩
    · rw [List.takeWhile_cons, if_neg hc]
      simp

lemma takeWhile_nlRun_append {q : List Char} (m : Nat)
    (hq : headNotWs q = true) :
    (nlRun m ++ q).takeWhile isPySpace = nlRun m := by
  induction m with
  | zero =>
    cases q with
    | nil => rfl
    | cons c t =>
      have hc : isPySpace c = false := by simpa [headNotWs] using hq
      simp [nlRun, List.takeWhile_cons, hc]
  | succ k ih =>
    show (('\n' :: (nlRun k ++ q)).takeWhile isPySpace) = '\n' :: nlRun k
    rw [List.takeWhile_cons, if_pos (by decide), ih]

lemma count_nlRun (m : Nat) : (nlRun m).count '\n' = m := by
  simp [nlRun]

lemma collapse3_nlRun {m : Nat} (hm : 2 ≤ m) {q : List Char}
    (hq : headNotWs q = true) :
    collapse3 (nlRun m ++ q) = '\n' :: '\n' :: collapse3 q := by
  by_cases h3 : 3 ≤ m
  · obtain ⟨k, rfl⟩ : ∃ k, m = k + 1 := ⟨m - 1, by omega⟩
    have hsh : nlRun (k + 1) ++ q = '\n' :: (nlRun k ++ q) := by
      simp [nlRun, List.replicate_succ]
    have htw : (('\n' :: (nlRun k ++ q)).takeWhile isPySpace) =
        nlRun (k + 1) := by
      rw [← hsh]
      exact takeWhile_nlRun_append (k + 1) hq
    rw [hsh, collapse3_cons_pos ⟨rfl, by rw [htw, count_nlRun]; omega⟩]
    congr 1
    congr 1
    rw [htw]
    have hrev : (nlRun (k + 1)).reverse = nlRun (k + 1) := by
      simp [nlRun]
    rw [hrev]
    have htk : ((nlRun (k + 1)).takeWhile (fun d => d != '\n')) = [] := by
      show (('\n' :: nlRun k).takeWhile (fun d => d != '\n')) = []
      rw [List.takeWhile_cons, if_neg (by decide)]
    rw [htk, List.reverse_nil, List.nil_append, ← hsh]
    have hlen : (nlRun (k + 1)).length = k + 1 := by simp [nlRun]
    rw [hlen]
    have hdq : (nlRun (k + 1) ++ q).drop (k + 1) = q :=
      List.drop_left' (by simp [nlRun])
    rw [hdq]
  · have hm2 : m = 2 := by omega
    subst hm2
    have hsh : nlRun 2 ++ q = '\n' :: ('\n' :: q) := by
      simp [nlRun, List.replicate_succ]
    have htw1 : (('\n' :: ('\n' :: q)).takeWhile isPySpace) = nlRun 2 := by
      rw [← hsh]
      exact takeWhile_nlRun_append 2 hq
    have htw2 : (('\n' :: q).takeWhile isPySpace) = nlRun 1 := by
      have : '\n' :: q = nlRun 1 ++ q := by simp [nlRun]
      rw [this]
      exact takeWhile_nlRun_append 1 hq
    rw [hsh, collapse3_cons_neg (by rw [htw1, count_nlRun]; omega),
      collapse3_cons_neg (by rw [htw2, count_nlRun]; omega)]

lemma collapse3_append : ∀ (N : Nat) (p s : List Char), p.length ≤ N →
    p ≠ [] → lastNotWs p = true →
    collapse3 (p ++ s) = collapse3 p ++ collapse3 s := by
  intro N
  induction N with
  | zero =>
    intro p s hlen hne _
    cases p with
    | nil => exact absurd rfl hne
    | cons c rest => simp at hlen
  | succ N ih =>
    intro p s hlen hne hlast
    cases p with
    | nil => exact absurd rfl hne
    | cons c rest =>
      have hex : ∃ x ∈ c :: rest, isPySpace x = false :=
        exists_not_ws_of_lastNotWs hne hlast
      have htw : ((c :: rest) ++ s).takeWhile isPySpace =
          (c :: rest).takeWhile isPySpace :=
        takeWhile_append_of_not_all s hex
      have hceq : c :: (rest ++ s) = (c :: rest) ++ s := rfl
      have hrunlt : ((c :: rest).takeWhile isPySpace).length <
          (c :: rest).length :=
        takeWhile_length_lt_of_not_all hex
      by_cases hbr : c = '\n' ∧
          3 ≤ (((c :: rest).takeWhile isPySpace).count '\n')
      · have hbr' : c = '\n' ∧
            3 ≤ (((c :: (rest ++ s)).takeWhile isPySpace).count '\n') := by
          refine ⟨hbr.1, ?_⟩
          rw [hceq, htw]
          exact hbr.2
        rw [List.cons_append, collapse3_cons_pos hbr', collapse3_cons_pos hbr]
        have hmemnl : '\n' ∈ (c :: rest).takeWhile isPySpace :=
          List.count_pos_iff.1 (by omega)
        have htlt : (((c :: rest).takeWhile isPySpace).reverse.takeWhile
            (fun d => d != '\n')).length <
            ((c :: rest).takeWhile isPySpace).length := by
          have := takeWhile_length_lt_of_not_all
            (p := fun d => d != '\n')
            (a := ((c :: rest).takeWhile isPySpace).reverse)
            ⟨'\n', List.mem_reverse.2 hmemnl, by decide⟩
          simpa using this
        have hdrop : (c :: (rest ++ s)).drop
            (((c :: rest).takeWhile isPySpace).length) =
            ((c :: rest).drop
              (((c :: rest).takeWhile isPySpace).length)) ++ s := by
          rw [hceq]
          exact List.drop_append_of_le_length (Nat.le_of_lt hrunlt)
        have hT : ((c :: (rest ++ s)).takeWhile isPySpace) =
            ((c :: rest).takeWhile isPySpace) := by
          rw [hceq, htw]
        rw [hT, hdrop, ← List.append_assoc]
        have hRne : (c :: rest).drop
            (((c :: rest).takeWhile isPySpace).length) ≠ [] := by
          intro hnil
          have hh := congrArg List.length hnil
          rw [List.length_drop, List.length_nil] at hh
          omega
        have hlast' : lastNotWs
            ((((c :: rest).takeWhile isPySpace).reverse.takeWhile
              (fun d => d != '\n')).reverse ++
              (c :: rest).drop
                (((c :: rest).takeWhile isPySpace).length)) = true := by
          rw [lastNotWs_append _ hRne]
          have hsplit := List.take_append_drop
            (((c :: rest).takeWhile isPySpace).length) (c :: rest)
          have : lastNotWs ((c :: rest).take
              (((c :: rest).takeWhile isPySpace).length) ++
              (c :: rest).drop
                (((c :: rest).takeWhile isPySpace).length)) = true := by
            rw [hsplit]
            exact hlast
          rwa [lastNotWs_append _ hRne] at this
        have hlen' : ((((c :: rest).takeWhile isPySpace).reverse.takeWhile
            (fun d => d != '\n')).reverse ++
            (c :: rest).drop
              (((c :: rest).takeWhile isPySpace).length)).length ≤ N := by
          rw [List.length_append, List.length_reverse, List.length_drop]
          omega
        have hne' : ((((c :: rest).takeWhile isPySpace).reverse.takeWhile
            (fun d => d != '\n')).reverse ++
            (c :: rest).drop
              (((c :: rest).takeWhile isPySpace).length)) ≠ [] := by
          intro hnil
          exact hRne (by simpa using (List.append_eq_nil.1 hnil).2
            )
        rw [ih _ s hlen' hne' hlast']
        rfl
      · have hbr' : ¬(c = '\n' ∧
            3 ≤ (((c :: (rest ++ s)).takeWhile isPySpace).count '\n')) := by
          intro hcc
          apply hbr
          refine ⟨hcc.1, ?_⟩
          have := hcc.2
          rwa [hceq, htw] at this
        rw [List.cons_append, collapse3_cons_neg hbr', collapse3_cons_neg hbr]
        cases rest with
        | nil =>
          rw [List.nil_append, collapse3_nil]
          rfl
        | cons d ds =>
          have hlast' : lastNotWs (d :: ds) = true := by
            have : lastNotWs ([c] ++ (d :: ds)) = true := hlast
            rwa [lastNotWs_append _ (by simp)] at this
          rw [ih (d :: ds) s (by simp only [List.length_cons] at hlen ⊢; omega)
            (by simp) hlast']
          rfl

lemma assemble_head (s : List Char) (rest : List (Nat × List Char)) :
    ∃ w, assemble s rest = s ++ w := by
  cases rest with
  | nil => exact ⟨[], (List.append_nil s).symm⟩
  | cons mt r =>
    obtain ⟨m, t⟩ := mt
    exact ⟨nlRun m ++ assemble t r, rfl⟩

lemma headNotWs_assemble {s : List Char} (rest : List (Nat × List Char))
    (hs : s ≠ []) (hh : headNotWs s = true) :
    headNotWs (assemble s rest) = true := by
  obtain ⟨w, hw⟩ := assemble_head s rest
  rw [hw, headNotWs_append _ hs]
  exact hh

lemma collapse3_assemble (parts : List (Nat × Nat × List Char)) :
    ∀ (s0 : List Char), s0 ≠ [] → lastNotWs s0 = true →
    (∀ mns ∈ parts, 2 ≤ mns.1 ∧ 2 ≤ mns.2.1 ∧ mns.2.2 ≠ [] ∧
      headNotWs mns.2.2 = true ∧ lastNotWs mns.2.2 = true) →
    collapse3 (assemble s0 (parts.map (fun mns => (mns.1, mns.2.2)))) =
      collapse3 (assemble s0 (parts.map (fun mns => (mns.2.1, mns.2.2)))) := by
  induction parts with
  | nil => intro s0 _ _ _; rfl
  | cons mns rest ih =>
    obtain ⟨m, n, seg⟩ := mns
    intro s0 hne hlast hparts
    obtain ⟨hm, hn, hsegne, hsegh, hsegl⟩ :=
      hparts _ (List.mem_cons_self _ _)
    show collapse3 (s0 ++ (nlRun m ++
        assemble seg (rest.map (fun mns => (mns.1, mns.2.2))))) =
      collapse3 (s0 ++ (nlRun n ++
        assemble seg (rest.map (fun mns => (mns.2.1, mns.2.2)))))
    rw [collapse3_append s0.length s0 _ le_rfl hne hlast,
      collapse3_append s0.length s0 _ le_rfl hne hlast,
      collapse3_nlRun hm (headNotWs_assemble _ hsegne hsegh),
      collapse3_nlRun hn (headNotWs_assemble _ hsegne hsegh),
      ih seg hsegne hsegl (fun x hx => hparts x (List.mem_cons_of_mem _ hx))]

/-- C7: two chapter pages whose converted Markdown differs only in the
lengths of their newline runs (each run of at least one blank line, i.e. at
least 2 consecutive newlines, possibly of different multiplicity on the two
pages) normalize to the same text after the collapse-and-strip
post-processing, and therefore receive the identical digest under any hash
function of the normalized text. -/
theorem blank_run_digest_invariant (hashFn : String → String)
    (s0 : List Char) (parts : List (Nat × Nat × List Char))
    (h0 : s0 ≠ [] ∧ lastNotWs s0 = true)
    (hparts : ∀ mns ∈ parts, 2 ≤ mns.1 ∧ 2 ≤ mns.2.1 ∧ mns.2.2 ≠ [] ∧
      headNotWs mns.2.2 = true ∧ lastNotWs mns.2.2 = true) :
    hashFn (extract_cleanup (String.mk
      (assemble s0 (parts.map (fun mns => (mns.1, mns.2.2)))))) =
    hashFn (extract_cleanup (String.mk
      (assemble s0 (parts.map (fun mns => (mns.2.1, mns.2.2)))))) := by
  have h := collapse3_assemble parts s0 h0.1 h0.2 hparts
  show hashFn (String.mk (stripEnds (collapse3
    (assemble s0 (parts.map (fun mns => (mns.1, mns.2.2))))))) = _
  rw [h]
  rfl

/-- Witness for C7: the page `a` + 3 newlines (2 blank lines) + `b` and the
page `a` + 2 newlines (1 blank line) + `b` normalize to the same digest. -/
theorem blank_run_digest_invariant_witness :
    (fun s : String => s) (extract_cleanup (String.mk
      (assemble ['a'] ([((3 : Nat), (2 : Nat), ['b'])].map
        (fun mns => (mns.1, mns.2.2)))))) =
    (fun s : String => s) (extract_cleanup (String.mk
      (assemble ['a'] ([((3 : Nat), (2 : Nat), ['b'])].map
        (fun mns => (mns.2.1, mns.2.2)))))) :=
  blank_run_digest_invariant (fun s => s) ['a'] [(3, 2, ['b'])]
    (by refine ⟨by decide, by decide⟩) (by decide)

lemma countP_set (p : TaskPhase → Bool) :
    ∀ (l : List TaskPhase) (i : Nat) (x y : TaskPhase), l[i]? = some y →
    (l.set i x).countP p + (if p y then 1 else 0) =
      l.countP p + (if p x then 1 else 0) := by
  intro l
  induction l with
  | nil => intro i x y h; simp at h
  | cons c rest ih =>
    intro i x y h
    cases i with
    | zero =>
      rw [List.getElem?_cons_zero] at h
      cases h
      rw [List.set_cons_zero, List.countP_cons, List.countP_cons]
      by_cases hx : p x = true <;> by_cases hc : p c = true <;>
        simp [hx, hc] <;> omega
    | succ i' =>
      rw [List.getElem?_cons_succ] at h
      rw [List.set_cons_succ, List.countP_cons, List.countP_cons]
      have := ih i' x y h
      by_cases hc : p c = true <;> simp [hc] <;> omega

lemma sum_map_set :
    ∀ (l : List TaskPhase) (i : Nat) (x y : TaskPhase), l[i]? = some y →
    ((l.set i x).map phaseWeight).sum + phaseWeight y =
      (l.map phaseWeight).sum + phaseWeight x := by
  intro l
  induction l with
  | nil => intro i x y h; simp at h
  | cons c rest ih =>
    intro i x y h
    cases i with
    | zero =>
      rw [List.getElem?_cons_zero] at h
      cases h
      rw [List.set_cons_zero, List.map_cons, List.map_cons, List.sum_cons,
        List.sum_cons]
      omega
    | succ i' =>
      rw [List.getElem?_cons_succ] at h
      rw [List.set_cons_succ, List.map_cons, List.map_cons, List.sum_cons,
        List.sum_cons]
      have := ih i' x y h
      omega

lemma poolInv {nSlots nTasks : Nat} {s : PoolState}
    (h : PoolReach nSlots nTasks s) :
    s.avail + countRunning s.tasks = nSlots := by
  induction h with
  | refl =>
    show nSlots + countRunning (List.replicate nTasks .waiting) = nSlots
    have : countRunning (List.replicate nTasks TaskPhase.waiting) = 0 := by
      unfold countRunning
      induction nTasks with
      | zero => rfl
      | succ k ihk =>
        rw [List.replicate_succ, List.countP_cons]
        simp [isRunning, ihk]
    omega
  | tail hab hbc ih =>
    rename_i b c
    cases hbc with
    | acquire i h ha =>
      have hc := countP_set isRunning b.tasks i .running .waiting h
      unfold countRunning at *
      simp [isRunning] at hc
      show b.avail - 1 + (b.tasks.set i .running).countP isRunning = nSlots
      omega
    | finish i ok h =>
      have hc := countP_set isRunning b.tasks i (.finished ok) .running h
      unfold countRunning at *
      simp [isRunning] at hc
      show b.avail + 1 + (b.tasks.set i (.finished ok)).countP isRunning =
        nSlots
      omega

/-- C9: the admission gate bounds concurrency — in every reachable state at
most `nSlots` tasks hold a slot; with a positive limit, every reachable
state with an unfinished task has an enabled transition (no deadlock); and
every transition strictly decreases the remaining work, so every maximal
run is finite and ends with all tasks completed or failed. -/
theorem semaphore_bound (nSlots nTasks : Nat) :
    (∀ s, PoolReach nSlots nTasks s → countRunning s.tasks ≤ nSlots) ∧
    (0 < nSlots → ∀ s, PoolReach nSlots nTasks s →
      (∃ t ∈ s.tasks, isFinishedPhase t = false) → ∃ s', PoolStep s s') ∧
    (∀ s s', PoolStep s s' → poolMeasure s' < poolMeasure s) := by
  refine ⟨?_, ?_, ?_⟩
  · intro s hs
    have := poolInv hs
    omega
  · intro hpos s hs ⟨t, htmem, htnf⟩
    by_cases hrun : 0 < countRunning s.tasks
    · rcases List.countP_pos.1 hrun with ⟨t', ht'mem, ht'run⟩
      rcases List.getElem_of_mem ht'mem with ⟨i, hilt, hieq⟩
      have hrt' : t' = .running := by
        cases t' <;> simp [isRunning] at ht'run <;> rfl
      refine ⟨_, PoolStep.finish s i true ?_⟩
      rw [List.getElem?_eq_getElem hilt, hieq, hrt']
    · have havail : 0 < s.avail := by
        have := poolInv hs
        omega
      have htw : t = .waiting := by
        cases t with
        | waiting => rfl
        | running =>
          exact absurd (List.countP_pos.2 ⟨_, htmem, rfl⟩) hrun
        | finished ok => simp [isFinishedPhase] at htnf
      rcases List.getElem_of_mem htmem with ⟨i, hilt, hieq⟩
      refine ⟨_, PoolStep.acquire s i ?_ havail⟩
      rw [List.getElem?_eq_getElem hilt, hieq, htw]
  · intro s s' hstep
    cases hstep with
    | acquire i h ha =>
      have hb := sum_map_set s.tasks i .running .waiting h
      unfold poolMeasure
      simp [phaseWeight] at hb ⊢
      omega
    | finish i ok h =>
      have hb := sum_map_set s.tasks i (.finished ok) .running h
      unfold poolMeasure
      simp [phaseWeight] at hb ⊢
      omega

/-- Witness for C9: limit 2 with 5 pending chapters — the bound holds at the
start, and the first acquisition strictly decreases the remaining work. -/
theorem semaphore_bound_witness :
    countRunning (initPool 2 5).tasks ≤ 2 ∧
    poolMeasure ⟨2 - 1, (initPool 2 5).tasks.set 0 .running⟩ <
      poolMeasure (initPool 2 5) :=
  ⟨(semaphore_bound 2 5).1 _ Relation.ReflTransGen.refl,
   (semaphore_bound 2 5).2.2 _ _
     (PoolStep.acquire (initPool 2 5) 0 (by decide) (by decide))⟩
